import Mathlib

/-!
Verification of the consistent-hashing ring in `hashring.py`.

The Python source keeps a class `HashRing` with fields `replicas`,
`ring` (a dict from hash key to node) and `_sorted_keys` (a Python list
of hash keys).  `gen_key` is `hashlib.md5(key.encode('utf8')).hexdigest()`,
so keys are 32-character lowercase hexadecimal strings and all ring
comparisons are Python string comparisons (code-point lexicographic).

We embed the code shallowly: the MD5 digest is implemented in full
(it is the standard-library function the code calls), dicts become
insertion-ordered association lists, Python lists become Lean lists,
and operations that can raise return `Option`/`Except`.
-/

set_option maxRecDepth 40000

namespace HashRingModel

/-! ### MD5, as called by `gen_key` (hashlib.md5(...).hexdigest()) -/

/-- Truncate to a 32-bit word, as every MD5 addition is mod 2^32. -/
def w32 (n : Nat) : Nat := n % 4294967296

/-- Left-rotate a 32-bit word by `n` bits. -/
def rotl (x n : Nat) : Nat := w32 (x <<< n) ||| (x >>> (32 - n))

/-- Per-round shift amounts of MD5 (RFC 1321). -/
def md5S : List Nat :=
  [7, 12, 17, 22, 7, 12, 17, 22, 7, 12, 17, 22, 7, 12, 17, 22,
   5, 9, 14, 20, 5, 9, 14, 20, 5, 9, 14, 20, 5, 9, 14, 20,
   4, 11, 16, 23, 4, 11, 16, 23, 4, 11, 16, 23, 4, 11, 16, 23,
   6, 10, 15, 21, 6, 10, 15, 21, 6, 10, 15, 21, 6, 10, 15, 21]

/-- Per-round additive constants of MD5 (RFC 1321). -/
def md5K : List Nat :=
  [0xd76aa478, 0xe8c7b756, 0x242070db, 0xc1bdceee,
   0xf57c0faf, 0x4787c62a, 0xa8304613, 0xfd469501,
   0x698098d8, 0x8b44f7af, 0xffff5bb1, 0x895cd7be,
   0x6b901122, 0xfd987193, 0xa679438e, 0x49b40821,
   0xf61e2562, 0xc040b340, 0x265e5a51, 0xe9b6c7aa,
   0xd62f105d, 0x02441453, 0xd8a1e681, 0xe7d3fbc8,
   0x21e1cde6, 0xc33707d6, 0xf4d50d87, 0x455a14ed,
   0xa9e3e905, 0xfcefa3f8, 0x676f02d9, 0x8d2a4c8a,
   0xfffa3942, 0x8771f681, 0x6d9d6122, 0xfde5380c,
   0xa4beea44, 0x4bdecfa9, 0xf6bb4b60, 0xbebfbc70,
   0x289b7ec6, 0xeaa127fa, 0xd4ef3085, 0x04881d05,
   0xd9d4d039, 0xe6db99e5, 0x1fa27cf8, 0xc4ac5665,
   0xf4292244, 0x432aff97, 0xab9423a7, 0xfc93a039,
   0x655b59c3, 0x8f0ccc92, 0xffeff47d, 0x85845dd1,
   0x6fa87e4f, 0xfe2ce6e0, 0xa3014314, 0x4e0811a1,
   0xf7537e82, 0xbd3af235, 0x2ad7d2bb, 0xeb86d391]

/-- UTF-8 encoding of one character, as `str.encode('utf8')` produces. -/
def charUtf8 (c : Char) : List Nat :=
  let n := c.toNat
  if n < 0x80 then [n]
  else if n < 0x800 then
    [0xC0 ||| (n >>> 6), 0x80 ||| (n &&& 0x3F)]
  else if n < 0x10000 then
    [0xE0 ||| (n >>> 12), 0x80 ||| ((n >>> 6) &&& 0x3F), 0x80 ||| (n &&& 0x3F)]
  else
    [0xF0 ||| (n >>> 18), 0x80 ||| ((n >>> 12) &&& 0x3F),
     0x80 ||| ((n >>> 6) &&& 0x3F), 0x80 ||| (n &&& 0x3F)]

/-- UTF-8 byte sequence of a string. -/
def utf8Bytes (s : String) : List Nat :=
  (s.data.map charUtf8).flatten

/-- Little-endian byte decomposition of a value into `n` bytes. -/
def bytesLE : Nat → Nat → List Nat
  | 0, _ => []
  | n + 1, v => (v % 256) :: bytesLE n (v / 256)

/-- MD5 padding: append 0x80, zero bytes to 56 mod 64, then the 64-bit
little-endian bit length. -/
def padMsg (m : List Nat) : List Nat :=
  let len := m.length
  let zeros := (120 - (len + 1) % 64) % 64
  m ++ [0x80] ++ List.replicate zeros 0 ++ bytesLE 8 ((len * 8) % 18446744073709551616)

/-- Pack consecutive groups of four bytes into little-endian 32-bit words. -/
def toWords : List Nat → List Nat
  | b0 :: b1 :: b2 :: b3 :: rest =>
      (b0 + 256 * (b1 + 256 * (b2 + 256 * b3))) :: toWords rest
  | _ => []

/-- One of the 64 MD5 rounds applied to state `(a, b, c, d)` with the
sixteen message words `M` of the current block. -/
def md5Round (M : List Nat) (st : Nat × Nat × Nat × Nat) (i : Nat) :
    Nat × Nat × Nat × Nat :=
  let (a, b, c, d) := st
  let f :=
    if i < 16 then (b &&& c) ||| ((b ^^^ 0xffffffff) &&& d)
    else if i < 32 then (d &&& b) ||| ((d ^^^ 0xffffffff) &&& c)
    else if i < 48 then b ^^^ c ^^^ d
    else c ^^^ (b ||| (d ^^^ 0xffffffff))
  let g :=
    if i < 16 then i
    else if i < 32 then (5 * i + 1) % 16
    else if i < 48 then (3 * i + 5) % 16
    else (7 * i) % 16
  let tmp := w32 (f + a + md5K.getD i 0 + M.getD g 0)
  (d, w32 (b + rotl tmp (md5S.getD i 0)), b, c)

/-- Process one 64-byte block, updating the running MD5 state. -/
def md5Block (block : List Nat) (st : Nat × Nat × Nat × Nat) :
    Nat × Nat × Nat × Nat :=
  let M := toWords block
  let (a0, b0, c0, d0) := st
  let (a, b, c, d) := (List.range 64).foldl (md5Round M) st
  (w32 (a0 + a), w32 (b0 + b), w32 (c0 + c), w32 (d0 + d))

/-- Process the padded message 64 bytes at a time (fueled structural
recursion; the fuel is an upper bound on the number of blocks). -/
def md5Blocks : Nat → List Nat → Nat × Nat × Nat × Nat → Nat × Nat × Nat × Nat
  | 0, _, st => st
  | _ + 1, [], st => st
  | fuel + 1, msg, st => md5Blocks fuel (msg.drop 64) (md5Block (msg.take 64) st)

/-- The sixteen digest bytes of MD5 over a byte message. -/
def md5Bytes (m : List Nat) : List Nat :=
  let p := padMsg m
  let (a, b, c, d) :=
    md5Blocks p.length p (0x67452301, 0xefcdab89, 0x98badcfe, 0x10325476)
  bytesLE 4 a ++ bytesLE 4 b ++ bytesLE 4 c ++ bytesLE 4 d

/-- Lowercase hexadecimal digit for a value below 16. -/
def hexDigitChar (n : Nat) : Char :=
  if n < 10 then Char.ofNat (48 + n) else Char.ofNat (87 + n)

/-- Two lowercase hex characters of one byte. -/
def byteHex (b : Nat) : List Char :=
  [hexDigitChar (b / 16), hexDigitChar (b % 16)]

/-- The 32-character lowercase hexadecimal MD5 digest of a string,
exactly `hashlib.md5(s.encode('utf8')).hexdigest()`. -/
def md5Hex (s : String) : String :=
  String.mk ((md5Bytes (utf8Bytes s)).map byteHex).flatten

/-- Sanity check of the MD5 embedding against the RFC 1321 test vector
for the empty string. -/
theorem md5Hex_empty : md5Hex "" = "d41d8cd98f00b204e9800998ecf8427e" := by
  decide

/-- Sanity check of the MD5 embedding against the RFC 1321 test vector
for the string abc. -/
theorem md5Hex_abc : md5Hex "abc" = "900150983cd24fb0d6963f7d28e17f72" := by
  decide

/-! ### Python string comparison

All ring keys are compared with Python's `<=` on `str`, which is
code-point lexicographic.  Lean's built-in `String` order is defined
by well-founded recursion and does not reduce in the kernel, so the
comparison is embedded directly as a structural boolean function. -/

/-- Lexicographic comparison of character lists by code point,
mirroring Python string comparison. -/
def charsLE : List Char → List Char → Bool
  | [], _ => true
  | _ :: _, [] => false
  | a :: as, b :: bs =>
      if a.toNat < b.toNat then true
      else if b.toNat < a.toNat then false
      else charsLE as bs

/-- Python's `a <= b` on strings. -/
def pyLE (a b : String) : Bool := charsLE a.data b.data

/-- The proposition form of `pyLE`, used as the sorting relation. -/
def PyLe (a b : String) : Prop := pyLE a b = true

instance : DecidableRel PyLe :=
  fun a b => inferInstanceAs (Decidable (pyLE a b = true))

/-- The comparison is total. -/
theorem charsLE_total : ∀ as bs, charsLE as bs = true ∨ charsLE bs as = true := by
  intro as
  induction as with
  | nil => intro bs; left; rfl
  | cons a as ih =>
      intro bs
      cases bs with
      | nil => right; rfl
      | cons b bs =>
          simp only [charsLE]
          rcases Nat.lt_trichotomy a.toNat b.toNat with h | h | h
          · left; simp [h]
          · rcases ih bs with h2 | h2 <;>
              simp [h, Nat.lt_irrefl, h2]
          · right; simp [h]

/-- The comparison is transitive. -/
theorem charsLE_trans :
    ∀ as bs cs, charsLE as bs = true → charsLE bs cs = true →
      charsLE as cs = true := by
  intro as
  induction as with
  | nil => intro bs cs _ _; rfl
  | cons a as ih =>
      intro bs cs h1 h2
      cases bs with
      | nil => simp [charsLE] at h1
      | cons b bs =>
          cases cs with
          | nil => simp [charsLE] at h2
          | cons c cs =>
              simp only [charsLE] at h1 h2 ⊢
              by_cases hab : a.toNat < b.toNat
              · by_cases hbc : b.toNat < c.toNat
                · have hac : a.toNat < c.toNat := Nat.lt_trans hab hbc
                  simp [hac]
                · by_cases hcb : c.toNat < b.toNat
                  · simp [hbc, hcb] at h2
                  · have hac : a.toNat < c.toNat := by omega
                    simp [hac]
              · by_cases hba : b.toNat < a.toNat
                · simp [hab, hba] at h1
                · simp [hab, hba] at h1
                  by_cases hbc : b.toNat < c.toNat
                  · have hac : a.toNat < c.toNat := by omega
                    simp [hac]
                  · by_cases hcb : c.toNat < b.toNat
                    · simp [hbc, hcb] at h2
                    · simp [hbc, hcb] at h2
                      have h3 : ¬ a.toNat < c.toNat := by omega
                      have h4 : ¬ c.toNat < a.toNat := by omega
                      simp [h3, h4, ih bs cs h1 h2]

/-- The comparison is antisymmetric. -/
theorem charsLE_antisymm :
    ∀ as bs, charsLE as bs = true → charsLE bs as = true → as = bs := by
  intro as
  induction as with
  | nil =>
      intro bs _ h2
      cases bs with
      | nil => rfl
      | cons b bs => simp [charsLE] at h2
  | cons a as ih =>
      intro bs h1 h2
      cases bs with
      | nil => simp [charsLE] at h1
      | cons b bs =>
          simp only [charsLE] at h1 h2
          by_cases hab : a.toNat < b.toNat
          · simp [hab, Nat.lt_asymm hab] at h2
          · by_cases hba : b.toNat < a.toNat
            · simp [hab, hba] at h1
            · have hn : a.toNat = b.toNat := by omega
              have ha : a = b := by
                have := congrArg Char.ofNat hn
                rwa [Char.ofNat_toNat, Char.ofNat_toNat] at this
              simp [hab, hba] at h1 h2
              rw [ha, ih bs h1 h2]

instance : IsTotal String PyLe :=
  ⟨fun a b => charsLE_total a.data b.data⟩

instance : IsTrans String PyLe :=
  ⟨fun a b c => charsLE_trans a.data b.data c.data⟩

instance : IsAntisymm String PyLe :=
  ⟨fun a b h1 h2 => String.ext (charsLE_antisymm a.data b.data h1 h2)⟩

/-! ### Python dict and list primitives used by `HashRing`

The `ring` field is a Python dict: an insertion-ordered association
list with unique keys.  `_sorted_keys` is a Python list; `list.remove`
deletes the first occurrence and raises on a missing value, and `del
d[k]` raises `KeyError` on a missing key — both are modelled with
`Option`. -/

/-- Python dict from hash key to node, as an insertion-ordered
association list. -/
abbrev Dict := List (String × String)

/-- Lookup `d[k]`: the value bound to `k`, if any. -/
def dictGet (d : Dict) (k : String) : Option String :=
  match d with
  | [] => none
  | (k', v) :: rest => if k' = k then some v else dictGet rest k

/-- Assignment `d[k] = v`: replace the binding in place if `k` is
present, otherwise append a new binding (Python dicts keep insertion
order). -/
def dictInsert (d : Dict) (k : String) (v : String) : Dict :=
  match d with
  | [] => [(k, v)]
  | (k', v') :: rest =>
      if k' = k then (k, v) :: rest else (k', v') :: dictInsert rest k v

/-- Deletion `del d[k]`: `none` models the `KeyError` raised when `k`
is absent. -/
def dictErase (d : Dict) (k : String) : Option Dict :=
  match d with
  | [] => none
  | (k', v') :: rest =>
      if k' = k then some rest
      else (dictErase rest k).map (fun r => (k', v') :: r)

/-- The keys of a dict in insertion order. -/
def dictKeys (d : Dict) : List String := d.map Prod.fst

/-- The number of entries of `d` whose value is `v` — how many ring
points currently map to the node `v`. -/
def countValue (d : Dict) (v : String) : Nat :=
  (d.filter (fun kv => kv.2 = v)).length

/-- Python `list.remove(x)`: drop the first occurrence of `x`; `none`
models the `ValueError` raised when `x` is absent. -/
def listRemoveFirst (l : List String) (x : String) : Option (List String) :=
  match l with
  | [] => none
  | y :: rest =>
      if y = x then some rest
      else (listRemoveFirst rest x).map (fun r => y :: r)

/-- Python `list.sort()` on the hash-key strings: ascending stable
sort under code-point lexicographic order.  Equal strings are
identical, so any ascending sort produces the same list as Python's. -/
def sortStrings (l : List String) : List String :=
  List.insertionSort PyLe l

/-! ### The `HashRing` class -/

/-- State of a `HashRing` object: `replicas`, the dict `ring`, and the
Python list `_sorted_keys` (called `sorted_keys` here). -/
structure HashRing where
  replicas : Nat
  ring : Dict
  sorted_keys : List String
deriving DecidableEq

/-- The hash function `gen_key`: the code returns
`md5(key.encode('utf8')).hexdigest()`, a 32-character hex string. -/
def gen_key (key : String) : String := md5Hex key

/-- The composite replica key `gen_key('%s:%s' % (node, i))`. -/
def replicaKey (node : String) (i : Nat) : String :=
  gen_key (node ++ ":" ++ toString i)

/-- All replica keys of a node, for replica indices `0..n-1`. -/
def replicaKeys (node : String) (n : Nat) : List String :=
  (List.range n).map (replicaKey node)

/-- The loop body of `add_node`: for each replica key, set
`ring[key] = node` and append `key` to `sorted_keys`. -/
def add_keys (node : String) : List String → HashRing → HashRing
  | [], r => r
  | k :: rest, r =>
      add_keys node rest
        { r with ring := dictInsert r.ring k node,
                 sorted_keys := r.sorted_keys ++ [k] }

/-- `add_node`: insert all replica points, then re-sort
`sorted_keys`. -/
def add_node (r : HashRing) (node : String) : HashRing :=
  let r' := add_keys node (replicaKeys node r.replicas) r
  { r' with sorted_keys := sortStrings r'.sorted_keys }

/-- One iteration of the `remove_node` loop: `del ring[key]` then
`sorted_keys.remove(key)`.  An error result carries the state at the
moment the exception is raised, so the partially-mutated state after a
successful dict deletion but failed list removal is observable. -/
def remove_step (r : HashRing) (key : String) : Except HashRing HashRing :=
  match dictErase r.ring key with
  | none => .error r
  | some d =>
      let r1 := { r with ring := d }
      match listRemoveFirst r1.sorted_keys key with
      | none => .error r1
      | some l => .ok { r1 with sorted_keys := l }

/-- The `remove_node` loop over a list of replica keys; the first
raised exception aborts the remaining iterations. -/
def remove_keys : List String → HashRing → Except HashRing HashRing
  | [], r => .ok r
  | k :: rest, r =>
      match remove_step r k with
      | .error s => .error s
      | .ok r' => remove_keys rest r'

/-- `remove_node`: delete every replica point of `node`. -/
def remove_node (r : HashRing) (node : String) : Except HashRing HashRing :=
  remove_keys (replicaKeys node r.replicas) r

/-- The constructor `HashRing(nodes, replicas)`: start empty and call
`add_node` on each supplied node in order. -/
def hashRingNew (nodes : List String) (replicas : Nat) : HashRing :=
  nodes.foldl add_node { replicas := replicas, ring := [], sorted_keys := [] }

/-- The search loop of `get_node_pos`: walk `sorted_keys` with the
running index `i`, returning the first entry `p` with `key <= p`
together with its index. -/
def scanKeys (key : String) : List String → Nat → Option (String × Nat)
  | [], _ => none
  | p :: rest, i =>
      if pyLE key p then some (p, i) else scanKeys key rest (i + 1)

/-- `get_node_pos`: on an empty dict return `(None, None)`; otherwise
search for the first position at or after the hashed key, wrapping to
index 0.  The outer `none` models a raised exception (`KeyError` or
`IndexError`), which cannot happen on well-formed states. -/
def get_node_pos (r : HashRing) (string_key : String) :
    Option (Option String × Option Nat) :=
  if r.ring = [] then some (none, none)
  else
    match scanKeys (gen_key string_key) r.sorted_keys 0 with
    | some (p, i) =>
        match dictGet r.ring p with
        | some node => some (some node, some i)
        | none => none
    | none =>
        match r.sorted_keys with
        | [] => none
        | p0 :: _ =>
            match dictGet r.ring p0 with
            | some node => some (some node, some 0)
            | none => none

/-- `get_node`: the first component of `get_node_pos`. -/
def get_node (r : HashRing) (string_key : String) : Option (Option String) :=
  (get_node_pos r string_key).map Prod.fst

/-! ### Lemmas about the dict and list primitives -/

theorem dictKeys_nil : dictKeys [] = [] := rfl

theorem dictKeys_cons (k v : String) (d : Dict) :
    dictKeys ((k, v) :: d) = k :: dictKeys d := rfl

theorem dictGet_eq_none_iff (d : Dict) (k : String) :
    dictGet d k = none ↔ k ∉ dictKeys d := by
  induction d with
  | nil => simp [dictGet, dictKeys_nil]
  | cons kv rest ih =>
      obtain ⟨k', v⟩ := kv
      rw [dictKeys_cons]
      by_cases h : k' = k
      · subst h; simp [dictGet]
      · have h2 : ¬ k = k' := fun hk => h hk.symm
        simp [dictGet, h, h2, ih]

theorem dictGet_isSome_iff (d : Dict) (k : String) :
    (∃ v, dictGet d k = some v) ↔ k ∈ dictKeys d := by
  rw [← Decidable.not_not (p := k ∈ dictKeys d), ← dictGet_eq_none_iff]
  cases h : dictGet d k <;> simp

theorem dictErase_eq_none_iff (d : Dict) (k : String) :
    dictErase d k = none ↔ k ∉ dictKeys d := by
  induction d with
  | nil => simp [dictErase, dictKeys_nil]
  | cons kv rest ih =>
      obtain ⟨k', v⟩ := kv
      rw [dictKeys_cons]
      by_cases h : k' = k
      · subst h; simp [dictErase]
      · have h2 : ¬ k = k' := fun hk => h hk.symm
        simp [dictErase, h, h2, ih, Option.map_eq_none']

theorem dictErase_keys {d d' : Dict} {k : String}
    (h : dictErase d k = some d') : dictKeys d' = (dictKeys d).erase k := by
  induction d generalizing d' with
  | nil => simp [dictErase] at h
  | cons kv rest ih =>
      obtain ⟨k', v⟩ := kv
      by_cases hk : k' = k
      · subst hk
        simp [dictErase] at h
        subst h
        rw [dictKeys_cons, List.erase_cons_head]
      · simp only [dictErase, if_neg hk, Option.map_eq_some'] at h
        obtain ⟨r0, hr0, hd'⟩ := h
        subst hd'
        rw [dictKeys_cons, dictKeys_cons,
          List.erase_cons_tail (by simp [hk]), ih hr0]

theorem dictInsert_fresh {d : Dict} {k : String} (v : String)
    (h : dictGet d k = none) : dictInsert d k v = d ++ [(k, v)] := by
  induction d with
  | nil => rfl
  | cons kv rest ih =>
      obtain ⟨k', v'⟩ := kv
      by_cases hk : k' = k
      · simp [dictGet, hk] at h
      · simp only [dictGet, if_neg hk] at h
        simp [dictInsert, hk, ih h]

theorem dictInsert_same {d : Dict} {k v : String}
    (h : dictGet d k = some v) : dictInsert d k v = d := by
  induction d with
  | nil => simp [dictGet] at h
  | cons kv rest ih =>
      obtain ⟨k', v'⟩ := kv
      by_cases hk : k' = k
      · simp only [dictGet, if_pos hk, Option.some.injEq] at h
        simp [dictInsert, hk, h]
      · simp only [dictGet, if_neg hk] at h
        simp [dictInsert, hk, ih h]

theorem dictGet_append_right {d1 : Dict} (d2 : Dict) {k : String}
    (h : k ∉ dictKeys d1) : dictGet (d1 ++ d2) k = dictGet d2 k := by
  induction d1 with
  | nil => rfl
  | cons kv rest ih =>
      obtain ⟨k', v'⟩ := kv
      rw [dictKeys_cons] at h
      simp only [List.mem_cons, not_or] at h
      have h1 : ¬ k' = k := fun hk => h.1 hk.symm
      simp [dictGet, h1, ih h.2]

theorem dictGet_append_left {d1 : Dict} (d2 : Dict) {k : String} {v : String}
    (h : dictGet d1 k = some v) : dictGet (d1 ++ d2) k = some v := by
  induction d1 with
  | nil => simp [dictGet] at h
  | cons kv rest ih =>
      obtain ⟨k', v'⟩ := kv
      by_cases hk : k' = k
      · simp only [dictGet, if_pos hk] at h
        simp [dictGet, hk, h]
      · simp only [dictGet, if_neg hk] at h
        simp [dictGet, hk, ih h]

theorem dictErase_append_right {d1 : Dict} (d2 : Dict) {k v : String}
    (h : k ∉ dictKeys d1) :
    dictErase (d1 ++ (k, v) :: d2) k = some (d1 ++ d2) := by
  induction d1 with
  | nil => simp [dictErase]
  | cons kv rest ih =>
      obtain ⟨k', v'⟩ := kv
      rw [dictKeys_cons] at h
      simp only [List.mem_cons, not_or] at h
      have h1 : ¬ k' = k := fun hk => h.1 hk.symm
      simp [dictErase, h1, ih h.2]

theorem dictKeys_append (d1 d2 : Dict) :
    dictKeys (d1 ++ d2) = dictKeys d1 ++ dictKeys d2 := by
  simp [dictKeys]

theorem countValue_append (d1 d2 : Dict) (v : String) :
    countValue (d1 ++ d2) v = countValue d1 v + countValue d2 v := by
  simp [countValue, List.filter_append]

theorem listRemoveFirst_eq_none_iff (l : List String) (x : String) :
    listRemoveFirst l x = none ↔ x ∉ l := by
  induction l with
  | nil => simp [listRemoveFirst]
  | cons y rest ih =>
      by_cases h : y = x
      · subst h; simp [listRemoveFirst]
      · have h2 : ¬ x = y := fun hx => h hx.symm
        simp [listRemoveFirst, h, h2, ih, Option.map_eq_none']

theorem listRemoveFirst_eq_erase {l : List String} {x : String}
    (h : x ∈ l) : listRemoveFirst l x = some (l.erase x) := by
  induction l with
  | nil => simp at h
  | cons y rest ih =>
      by_cases hy : y = x
      · subst hy; simp [listRemoveFirst, List.erase_cons_head]
      · have hx : x ∈ rest := by
          rcases List.mem_cons.mp h with h' | h'
          · exact absurd h'.symm hy
          · exact h'
        rw [List.erase_cons_tail (by simp [hy])]
        simp [listRemoveFirst, hy, ih hx]

theorem listRemoveFirst_some_inv {l l' : List String} {x : String}
    (h : listRemoveFirst l x = some l') : x ∈ l ∧ l' = l.erase x := by
  have hx : x ∈ l := by
    by_contra hx
    rw [(listRemoveFirst_eq_none_iff l x).mpr hx] at h
    exact Option.noConfusion h
  refine ⟨hx, ?_⟩
  rw [listRemoveFirst_eq_erase hx] at h
  exact (Option.some.inj h).symm

/-! ### Structure of `add_node` and `remove_node` -/

theorem add_keys_replicas (X : String) :
    ∀ (K : List String) (r : HashRing), (add_keys X K r).replicas = r.replicas := by
  intro K
  induction K with
  | nil => intro r; rfl
  | cons k rest ih => intro r; rw [add_keys, ih]

theorem add_keys_sorted (X : String) :
    ∀ (K : List String) (r : HashRing),
      (add_keys X K r).sorted_keys = r.sorted_keys ++ K := by
  intro K
  induction K with
  | nil => intro r; simp [add_keys]
  | cons k rest ih => intro r; rw [add_keys, ih]; simp

theorem add_keys_ring_fresh (X : String) :
    ∀ (K : List String) (r : HashRing), K.Nodup →
      (∀ k ∈ K, dictGet r.ring k = none) →
      (add_keys X K r).ring = r.ring ++ K.map (fun k => (k, X)) := by
  intro K
  induction K with
  | nil => intro r _ _; simp [add_keys]
  | cons k rest ih =>
      intro r hnd hfresh
      rw [add_keys, ih _ (List.Nodup.of_cons hnd)]
      · simp [dictInsert_fresh X (hfresh k (List.mem_cons_self k rest))]
      · intro k' hk'
        have hne : ¬ k' = k := by
          intro he
          subst he
          exact (List.nodup_cons.mp hnd).1 hk'
        rw [show (({ r with
            ring := dictInsert r.ring k X,
            sorted_keys := r.sorted_keys ++ [k] } : HashRing)).ring =
            dictInsert r.ring k X from rfl,
          dictInsert_fresh X (hfresh k (List.mem_cons_self k rest)),
          dictGet_append_right]
        · have hne2 : ¬ k = k' := fun he => hne he.symm
          simp [dictGet, hne2]
        · rw [← dictGet_eq_none_iff]
          exact hfresh k' (List.mem_cons_of_mem _ hk')

theorem add_keys_ring_present (X : String) :
    ∀ (K : List String) (r : HashRing),
      (∀ k ∈ K, dictGet r.ring k = some X) →
      (add_keys X K r).ring = r.ring := by
  intro K
  induction K with
  | nil => intro r _; rfl
  | cons k rest ih =>
      intro r hpres
      rw [add_keys, ih]
      · simp [dictInsert_same (hpres k (List.mem_cons_self k rest))]
      · intro k' hk'
        rw [show (({ r with
            ring := dictInsert r.ring k X,
            sorted_keys := r.sorted_keys ++ [k] } : HashRing)).ring =
            dictInsert r.ring k X from rfl,
          dictInsert_same (hpres k (List.mem_cons_self k rest))]
        exact hpres k' (List.mem_cons_of_mem _ hk')

theorem add_node_replicas (r : HashRing) (X : String) :
    (add_node r X).replicas = r.replicas := by
  rw [add_node, add_keys_replicas]

/-- Shape of `add_node` when every replica key is fresh: the new
bindings are appended to the dict and the keys to the (re-sorted)
position list. -/
theorem add_node_fresh_eq (r : HashRing) (X : String)
    (hnd : (replicaKeys X r.replicas).Nodup)
    (hfresh : ∀ k ∈ replicaKeys X r.replicas, dictGet r.ring k = none) :
    add_node r X =
      { replicas := r.replicas,
        ring := r.ring ++ (replicaKeys X r.replicas).map (fun k => (k, X)),
        sorted_keys := sortStrings (r.sorted_keys ++ replicaKeys X r.replicas) } := by
  rw [add_node]
  have h1 := add_keys_ring_fresh X (replicaKeys X r.replicas) r hnd hfresh
  have h2 := add_keys_sorted X (replicaKeys X r.replicas) r
  have h3 := add_keys_replicas X (replicaKeys X r.replicas) r
  cases he : add_keys X (replicaKeys X r.replicas) r
  rw [he] at h1 h2 h3
  simp_all

/-- Shape of `add_node` when every replica key is already bound to the
same node: the dict is unchanged and the keys are appended to the
position list a second time. -/
theorem add_node_present_eq (r : HashRing) (X : String)
    (hpres : ∀ k ∈ replicaKeys X r.replicas, dictGet r.ring k = some X) :
    add_node r X =
      { replicas := r.replicas,
        ring := r.ring,
        sorted_keys := sortStrings (r.sorted_keys ++ replicaKeys X r.replicas) } := by
  rw [add_node]
  have h1 := add_keys_ring_present X (replicaKeys X r.replicas) r hpres
  have h2 := add_keys_sorted X (replicaKeys X r.replicas) r
  have h3 := add_keys_replicas X (replicaKeys X r.replicas) r
  cases he : add_keys X (replicaKeys X r.replicas) r
  rw [he] at h1 h2 h3
  simp_all

theorem remove_step_err_of_absent {r : HashRing} {k : String}
    (h : dictGet r.ring k = none) : remove_step r k = .error r := by
  rw [remove_step, (dictErase_eq_none_iff r.ring k).mpr
    ((dictGet_eq_none_iff r.ring k).mp h)]

/-- Inversion of a successful `remove_step`. -/
theorem remove_step_ok_inv {r r' : HashRing} {k : String}
    (h : remove_step r k = .ok r') :
    dictErase r.ring k = some r'.ring ∧
      listRemoveFirst r.sorted_keys k = some r'.sorted_keys ∧
      r'.replicas = r.replicas := by
  rw [remove_step] at h
  cases hd : dictErase r.ring k with
  | none => rw [hd] at h; exact Except.noConfusion h
  | some d =>
      rw [hd] at h
      cases hl : listRemoveFirst r.sorted_keys k with
      | none => simp [hl] at h
      | some l =>
          simp only [hl] at h
          have := Except.ok.inj h
          subst this
          exact ⟨rfl, rfl, rfl⟩

/-- A key that is absent from the dict stays absent through any
successful `remove_step` (deletions never add keys). -/
theorem remove_step_preserves_absent {r r' : HashRing} {k k' : String}
    (h : remove_step r k' = .ok r') (habs : k ∉ dictKeys r.ring) :
    k ∉ dictKeys r'.ring := by
  obtain ⟨hd, _, _⟩ := remove_step_ok_inv h
  rw [dictErase_keys hd]
  intro hmem
  exact habs (List.mem_of_mem_erase hmem)

/-- If some key of `K` is absent from the dict, the `remove_node` loop
raises before completing. -/
theorem remove_keys_err_of_absent :
    ∀ (K : List String) (r : HashRing) (k : String), k ∈ K →
      k ∉ dictKeys r.ring → ∃ s, remove_keys K r = .error s := by
  intro K
  induction K with
  | nil => intro r k hk; simp at hk
  | cons k0 rest ih =>
      intro r k hk habs
      rw [remove_keys]
      cases hs : remove_step r k0 with
      | error s => exact ⟨s, rfl⟩
      | ok r' =>
          rcases List.mem_cons.mp hk with he | hr
          · subst he
            rw [remove_step_err_of_absent
              ((dictGet_eq_none_iff r.ring k).mpr habs)] at hs
            exact Except.noConfusion hs
          · exact ih r' k hr (remove_step_preserves_absent hs habs)

/-- Removing a block of keys that sits appended at the end of the dict
succeeds and peels the block off, leaving the original dict. -/
theorem remove_keys_ok_append (X : String) :
    ∀ (K : List String) (d : Dict) (sk : List String) (n : Nat), K.Nodup →
      (∀ k ∈ K, k ∉ dictKeys d) → (∀ k ∈ K, k ∈ sk) →
      ∃ sk', remove_keys K ⟨n, d ++ K.map (fun k => (k, X)), sk⟩ = .ok ⟨n, d, sk'⟩ := by
  intro K
  induction K with
  | nil => intro d sk n _ _ _; exact ⟨sk, by simp [remove_keys]⟩
  | cons k0 rest ih =>
      intro d sk n hnd habs hmem
      have hd : dictErase (d ++ (k0, X) :: rest.map (fun k => (k, X))) k0 =
          some (d ++ rest.map (fun k => (k, X))) :=
        dictErase_append_right _ (habs k0 (List.mem_cons_self k0 rest))
      have hl : listRemoveFirst sk k0 = some (sk.erase k0) :=
        listRemoveFirst_eq_erase (hmem k0 (List.mem_cons_self k0 rest))
      obtain ⟨sk', hrec⟩ := ih d (sk.erase k0) n (List.Nodup.of_cons hnd)
        (fun k hk => habs k (List.mem_cons_of_mem _ hk))
        (fun k hk => by
          have hne : k ≠ k0 := by
            intro he
            subst he
            exact (List.nodup_cons.mp hnd).1 hk
          exact (List.mem_erase_of_ne hne).mpr (hmem k (List.mem_cons_of_mem _ hk)))
      refine ⟨sk', ?_⟩
      have hstep : remove_step ⟨n, d ++ (k0 :: rest).map (fun k => (k, X)), sk⟩ k0 =
          .ok ⟨n, d ++ rest.map (fun k => (k, X)), sk.erase k0⟩ := by
        rw [remove_step]
        simp only [List.map_cons, hd, hl]
      rw [remove_keys, hstep]
      exact hrec

/-! ### The well-formedness invariant of a ring -/

/-- The data-model invariant: `sorted_keys` is ascending under the
Python string order, it is a permutation of the dict's keys, and the
dict's keys are duplicate-free. Together these say `sorted_keys` is
exactly the ascending sort of the key set of `ring`. -/
def Inv (r : HashRing) : Prop :=
  List.Sorted PyLe r.sorted_keys ∧
    r.sorted_keys.Perm (dictKeys r.ring) ∧ (dictKeys r.ring).Nodup

/-- The keys of the dict obtained by tagging a key list with one
value are that key list. -/
theorem dictKeys_tag (X : String) (K : List String) :
    dictKeys (K.map (fun k => (k, X))) = K := by
  induction K with
  | nil => rfl
  | cons k rest ih => rw [List.map_cons, dictKeys_cons, ih]

/-- The invariant forces `sorted_keys` to be the canonical ascending
sort of the dict keys. -/
theorem inv_exact {r : HashRing} (h : Inv r) :
    r.sorted_keys = sortStrings (dictKeys r.ring) := by
  obtain ⟨hs, hp, _⟩ := h
  exact List.eq_of_perm_of_sorted
    (hp.trans (List.perm_insertionSort PyLe (dictKeys r.ring)).symm) hs
    (List.sorted_insertionSort PyLe (dictKeys r.ring))

/-- Precondition under which `add_node` keeps the invariant: the new
replica keys are mutually distinct and absent from the ring (no hash
collision and the node is not already present). -/
def freshAdd (r : HashRing) (X : String) : Prop :=
  (replicaKeys X r.replicas).Nodup ∧
    ∀ k ∈ replicaKeys X r.replicas, dictGet r.ring k = none

instance (r : HashRing) (X : String) : Decidable (freshAdd r X) := by
  unfold freshAdd
  exact instDecidableAnd

/-- `add_node` preserves the invariant when the added keys are fresh. -/
theorem inv_add_node {r : HashRing} {X : String}
    (h : Inv r) (hf : freshAdd r X) : Inv (add_node r X) := by
  obtain ⟨hs, hp, hnd⟩ := h
  obtain ⟨hknd, hfresh⟩ := hf
  rw [add_node_fresh_eq r X hknd hfresh]
  refine ⟨List.sorted_insertionSort PyLe _, ?_, ?_⟩
  · show (sortStrings (r.sorted_keys ++ replicaKeys X r.replicas)).Perm
      (dictKeys (r.ring ++ (replicaKeys X r.replicas).map (fun k => (k, X))))
    rw [dictKeys_append, dictKeys_tag]
    exact (List.perm_insertionSort PyLe _).trans
      (List.Perm.append hp (List.Perm.refl _))
  · show (dictKeys (r.ring ++ (replicaKeys X r.replicas).map (fun k => (k, X)))).Nodup
    rw [dictKeys_append, dictKeys_tag]
    refine List.Nodup.append hnd hknd ?_
    intro a ha1 ha2
    exact ((dictGet_eq_none_iff r.ring a).mp (hfresh a ha2)) ha1

/-- A successful `remove_step` preserves the invariant. -/
theorem inv_remove_step {r r' : HashRing} {k : String}
    (h : Inv r) (hs : remove_step r k = .ok r') : Inv r' := by
  obtain ⟨hsort, hperm, hnd⟩ := h
  obtain ⟨hd, hl, _⟩ := remove_step_ok_inv hs
  obtain ⟨_, hl2⟩ := listRemoveFirst_some_inv hl
  have hk := dictErase_keys hd
  refine ⟨?_, ?_, ?_⟩
  · rw [hl2]
    exact List.Pairwise.sublist (List.erase_sublist k r.sorted_keys) hsort
  · rw [hl2, hk]
    exact hperm.erase k
  · rw [hk]
    exact hnd.erase k

/-- A successful run of the `remove_node` loop preserves the
invariant. -/
theorem inv_remove_keys :
    ∀ (K : List String) {r r' : HashRing}, Inv r →
      remove_keys K r = .ok r' → Inv r' := by
  intro K
  induction K with
  | nil =>
      intro r r' h hr
      simp only [remove_keys, Except.ok.injEq] at hr
      rwa [← hr]
  | cons k0 rest ih =>
      intro r r' h hr
      rw [remove_keys] at hr
      cases hs : remove_step r k0 with
      | error s => rw [hs] at hr; exact Except.noConfusion hr
      | ok r1 =>
          rw [hs] at hr
          exact ih (inv_remove_step h hs) hr

/-! ### Operation sequences -/

/-- One membership operation on the ring. -/
inductive Op where
  | add (node : String)
  | remove (node : String)
deriving DecidableEq

/-- Run a sequence of operations, stopping (with `none`) as soon as a
`remove_node` raises. -/
def runOps : HashRing → List Op → Option HashRing
  | r, [] => some r
  | r, Op.add X :: ops => runOps (add_node r X) ops
  | r, Op.remove X :: ops =>
      match remove_node r X with
      | .ok r' => runOps r' ops
      | .error _ => none

/-- Run a sequence of operations, additionally requiring every
`add_node` to be collision-free and to add a node that is not already
present (`freshAdd`). -/
def runClean : HashRing → List Op → Option HashRing
  | r, [] => some r
  | r, Op.add X :: ops =>
      if freshAdd r X then runClean (add_node r X) ops else none
  | r, Op.remove X :: ops =>
      match remove_node r X with
      | .ok r' => runClean r' ops
      | .error _ => none

/-- A clean run preserves the invariant. -/
theorem inv_runClean :
    ∀ (ops : List Op) {r r' : HashRing}, Inv r →
      runClean r ops = some r' → Inv r' := by
  intro ops
  induction ops with
  | nil =>
      intro r r' h hr
      simp only [runClean, Option.some.injEq] at hr
      rwa [← hr]
  | cons op rest ih =>
      intro r r' h hr
      cases op with
      | add X =>
          rw [runClean] at hr
          by_cases hf : freshAdd r X
          · rw [if_pos hf] at hr
            exact ih (inv_add_node h hf) hr
          · rw [if_neg hf] at hr
            exact Option.noConfusion hr
      | remove X =>
          rw [runClean] at hr
          cases hs : remove_node r X with
          | error s => rw [hs] at hr; exact Option.noConfusion hr
          | ok r1 =>
              rw [hs] at hr
              exact ih (inv_remove_keys _ h hs) hr

/-! ### Characterization of the lookup scan -/

/-- The scan returns `none` when no entry is at or after the key. -/
theorem scanKeys_eq_none (key : String) :
    ∀ (l : List String) (b : Nat), (∀ p ∈ l, ¬ PyLe key p) →
      scanKeys key l b = none := by
  intro l
  induction l with
  | nil => intro b _; rfl
  | cons p rest ih =>
      intro b h
      rw [scanKeys, if_neg]
      · exact ih (b + 1) (fun q hq => h q (List.mem_cons_of_mem _ hq))
      · have := h p (List.mem_cons_self p rest)
        simpa [PyLe] using this

/-- The scan finds the first entry at or after the key, reporting its
index shifted by the starting counter. -/
theorem scanKeys_eq_some (key : String) :
    ∀ (l : List String) (i : Nat) (p : String) (b : Nat),
      l[i]? = some p → PyLe key p →
      (∀ j q, j < i → l[j]? = some q → ¬ PyLe key q) →
      scanKeys key l b = some (p, b + i) := by
  intro l
  induction l with
  | nil => intro i p b hi; simp at hi
  | cons a rest ih =>
      intro i p b hi hp hfirst
      cases i with
      | zero =>
          simp only [List.getElem?_cons_zero, Option.some.injEq] at hi
          subst hi
          rw [scanKeys, if_pos (by simpa [PyLe] using hp)]
          simp
      | succ i' =>
          have ha : ¬ PyLe key a :=
            hfirst 0 a (Nat.succ_pos i') (by simp)
          rw [scanKeys, if_neg (by simpa [PyLe] using ha)]
          have := ih i' p (b + 1)
            (by simpa using hi) hp
            (fun j q hj hq =>
              hfirst (j + 1) q (Nat.succ_lt_succ hj) (by simpa using hq))
          rw [this, show b + 1 + i' = b + (i' + 1) from by omega]

/-! ### The generator `get_nodes`

`get_nodes` is a Python generator.  Its denotation is computed as a
finite list of values yielded before the `while True:` loop is
entered, together with a tail behaviour: either an exception is raised
(after those yields), or the loop cycles forever over a fixed list of
yields per pass.  When that cycle list is empty the generator loops
forever without yielding, so a `next()` call diverges. -/

/-- A value yielded by `get_nodes`: the `(None, None)` sentinel tuple
or a node identifier. -/
inductive YieldVal where
  | nonePair
  | node (s : String)
deriving DecidableEq

/-- What happens after the finite prefix of yields. -/
inductive GenTail where
  | raises
  | loops (cyc : List YieldVal)
deriving DecidableEq

/-- The outcome of the n-th `next()` call on the generator. -/
inductive GenOutcome where
  | yields (v : YieldVal)
  | stops
  | raises
  | diverges
deriving DecidableEq

/-- Look every key of `keys` up in `d`, returning the values found
before the first missing key and whether a missing key (a raised
`KeyError`) was hit. -/
def mapGetPre (d : Dict) : List String → List String × Bool
  | [] => ([], false)
  | k :: rest =>
      match dictGet d k with
      | none => ([], true)
      | some v =>
          let p := mapGetPre d rest
          (v :: p.1, p.2)

/-- The trace of the generator body: the finite prefix of yielded
values, and the tail behaviour.  `sorted_keys[pos:]` with `pos = None`
is the full slice, as in Python. -/
def get_nodes_trace (r : HashRing) (sk : String) : List YieldVal × GenTail :=
  let sentinel : List YieldVal := if r.ring = [] then [YieldVal.nonePair] else []
  match get_node_pos r sk with
  | none => (sentinel, GenTail.raises)
  | some (_, pos) =>
      let sliced := match pos with
        | none => r.sorted_keys
        | some i => r.sorted_keys.drop i
      let p1 := mapGetPre r.ring sliced
      if p1.2 then (sentinel ++ p1.1.map YieldVal.node, GenTail.raises)
      else
        let p2 := mapGetPre r.ring r.sorted_keys
        if p2.2 then
          (sentinel ++ p1.1.map YieldVal.node ++ p2.1.map YieldVal.node,
            GenTail.raises)
        else (sentinel ++ p1.1.map YieldVal.node, GenTail.loops (p2.1.map YieldVal.node))

/-- The outcome of the n-th `next()` call on the generator
`get_nodes(string_key)` (counting from 0).  Within the finite prefix
the call yields; at the end of a raising trace the exception
propagates and afterwards the generator is closed (`StopIteration`);
an empty cycle means the `while True:` loop spins without yielding, so
the call never returns. -/
def get_nodes_outcome (r : HashRing) (sk : String) (n : Nat) : GenOutcome :=
  let t := get_nodes_trace r sk
  if h : n < t.1.length then GenOutcome.yields (t.1.get ⟨n, h⟩)
  else
    match t.2 with
    | GenTail.raises =>
        if n = t.1.length then GenOutcome.raises else GenOutcome.stops
    | GenTail.loops cyc =>
        if h2 : cyc = [] then GenOutcome.diverges
        else
          GenOutcome.yields (cyc.get ⟨(n - t.1.length) % cyc.length,
            Nat.mod_lt _ (List.length_pos.mpr h2)⟩)

/-! ### Claim theorems -/

/-- C2: on a ring with no points, `get_node_pos` returns the sentinel
pair `(None, None)` and `get_node` returns the sentinel `None`,
without raising. -/
theorem claim2_empty_ring_lookup (r : HashRing) (k : String)
    (h : r.ring = []) :
    get_node_pos r k = some (none, none) ∧ get_node r k = some none := by
  have h1 : get_node_pos r k = some (none, none) := by
    rw [get_node_pos, if_pos h]
  exact ⟨h1, by rw [get_node, h1]; rfl⟩

/-- Witness for C2 at a concrete empty ring. -/
theorem claim2_witness :
    get_node_pos (HashRing.mk 3 [] []) "x" = some (none, none) ∧
      get_node (HashRing.mk 3 [] []) "x" = some none :=
  claim2_empty_ring_lookup (HashRing.mk 3 [] []) "x" rfl

/-- C1: on a ring whose points dict is non-empty (and whose
`sorted_keys` entries are all present in the dict, as maintained by
the invariant), the lookup returns `(points[p], i)` for the first
entry `p` of `sorted_keys` with `hash(k) <= p` at index `i`, and wraps
to `(points[sorted_keys[0]], 0)` when the hashed key is greater than
every entry. -/
theorem claim1_lookup_rule (r : HashRing) (k : String)
    (hne : r.ring ≠ [])
    (hcov : ∀ p ∈ r.sorted_keys, (dictGet r.ring p).isSome = true)
    (hsk : r.sorted_keys ≠ []) :
    (∀ i p, r.sorted_keys[i]? = some p → PyLe (gen_key k) p →
      (∀ j q, j < i → r.sorted_keys[j]? = some q → ¬ PyLe (gen_key k) q) →
      ∃ v, dictGet r.ring p = some v ∧
        get_node_pos r k = some (some v, some i)) ∧
    ((∀ p ∈ r.sorted_keys, ¬ PyLe (gen_key k) p) →
      ∃ p0 v0, r.sorted_keys[0]? = some p0 ∧ dictGet r.ring p0 = some v0 ∧
        get_node_pos r k = some (some v0, some 0)) := by
  constructor
  · intro i p hi hp hfirst
    obtain ⟨v, hv⟩ := Option.isSome_iff_exists.mp
      (hcov p (List.getElem?_mem hi))
    refine ⟨v, hv, ?_⟩
    rw [get_node_pos, if_neg hne,
      scanKeys_eq_some (gen_key k) r.sorted_keys i p 0 hi hp hfirst]
    simp [hv]
  · intro hnone
    cases hsk' : r.sorted_keys with
    | nil => exact absurd hsk' hsk
    | cons p0 rest =>
        obtain ⟨v0, hv0⟩ := Option.isSome_iff_exists.mp
          (hcov p0 (by rw [hsk']; exact List.mem_cons_self p0 rest))
        refine ⟨p0, v0, by simp, hv0, ?_⟩
        rw [get_node_pos, if_neg hne,
          scanKeys_eq_none (gen_key k) r.sorted_keys 0 hnone, hsk']
        simp [hv0]

/-- Witness for C1 at a concrete one-point ring. -/
theorem claim1_witness :
    (∀ i p, ((HashRing.mk 1 [("k", "A")] ["k"]).sorted_keys)[i]? = some p →
      PyLe (gen_key "x") p →
      (∀ j q, j < i →
        ((HashRing.mk 1 [("k", "A")] ["k"]).sorted_keys)[j]? = some q →
        ¬ PyLe (gen_key "x") q) →
      ∃ v, dictGet (HashRing.mk 1 [("k", "A")] ["k"]).ring p = some v ∧
        get_node_pos (HashRing.mk 1 [("k", "A")] ["k"]) "x" =
          some (some v, some i)) ∧
    ((∀ p ∈ (HashRing.mk 1 [("k", "A")] ["k"]).sorted_keys,
        ¬ PyLe (gen_key "x") p) →
      ∃ p0 v0, ((HashRing.mk 1 [("k", "A")] ["k"]).sorted_keys)[0]? = some p0 ∧
        dictGet (HashRing.mk 1 [("k", "A")] ["k"]).ring p0 = some v0 ∧
        get_node_pos (HashRing.mk 1 [("k", "A")] ["k"]) "x" =
          some (some v0, some 0)) :=
  claim1_lookup_rule (HashRing.mk 1 [("k", "A")] ["k"]) "x"
    (by decide) (by decide) (by decide)

/-- C8: lookups are a pure function of the membership state: two rings
with equal `ring` and `sorted_keys` give identical `get_node_pos` and
`get_node` results on every key, independently of history and of the
`replicas` field, and `gen_key` is deterministic. -/
theorem claim8_determinism (r1 r2 : HashRing) (k : String)
    (h1 : r1.ring = r2.ring) (h2 : r1.sorted_keys = r2.sorted_keys) :
    get_node_pos r1 k = get_node_pos r2 k ∧
      get_node r1 k = get_node r2 k ∧ gen_key k = gen_key k := by
  have hp : get_node_pos r1 k = get_node_pos r2 k := by
    simp only [get_node_pos, h1, h2]
  exact ⟨hp, by rw [get_node, get_node, hp], rfl⟩

/-- Witness for C8: two rings equal in membership state but with
different `replicas` fields (so built by different histories). -/
theorem claim8_witness :
    get_node_pos (HashRing.mk 1 [("k", "A")] ["k"]) "x" =
        get_node_pos (HashRing.mk 7 [("k", "A")] ["k"]) "x" ∧
      get_node (HashRing.mk 1 [("k", "A")] ["k"]) "x" =
        get_node (HashRing.mk 7 [("k", "A")] ["k"]) "x" ∧
      gen_key "x" = gen_key "x" :=
  claim8_determinism (HashRing.mk 1 [("k", "A")] ["k"])
    (HashRing.mk 7 [("k", "A")] ["k"]) "x" rfl rfl

/-- C3: removing a node some of whose replica keys are absent from the
points dict raises (the loop hits a missing-key deletion); it never
completes as a silent no-op. -/
theorem claim3_remove_unknown_raises (r : HashRing) (X : String)
    (h : ∃ k ∈ replicaKeys X r.replicas, dictGet r.ring k = none) :
    ∃ s, remove_node r X = .error s := by
  obtain ⟨k, hk, habs⟩ := h
  rw [remove_node]
  exact remove_keys_err_of_absent _ r k hk ((dictGet_eq_none_iff _ _).mp habs)

/-- Witness for C3: removing a never-added node from an empty ring. -/
theorem claim3_witness :
    (∃ k ∈ replicaKeys "B" 1, dictGet (HashRing.mk 1 [] []).ring k = none) ∧
      ∃ s, remove_node (HashRing.mk 1 [] []) "B" = .error s :=
  ⟨by decide, claim3_remove_unknown_raises (HashRing.mk 1 [] []) "B" (by decide)⟩

/-- C9: when the replica-0 key of the node is absent, the very first
loop iteration of `remove_node` raises before any mutation, so the
error state is exactly the input state. -/
theorem claim9_remove_unknown_state_unchanged (r : HashRing) (X : String)
    (hrep : 0 < r.replicas)
    (h0 : dictGet r.ring (replicaKey X 0) = none) :
    remove_node r X = .error r := by
  obtain ⟨m, hm⟩ : ∃ m, r.replicas = m + 1 := ⟨r.replicas - 1, by omega⟩
  rw [remove_node, replicaKeys, hm, List.range_succ_eq_map, List.map_cons,
    remove_keys, remove_step_err_of_absent h0]

/-- Witness for C9 at a concrete ring and unknown node. -/
theorem claim9_witness :
    0 < (HashRing.mk 1 [] []).replicas ∧
      dictGet (HashRing.mk 1 [] []).ring (replicaKey "B" 0) = none ∧
      remove_node (HashRing.mk 1 [] []) "B" = .error (HashRing.mk 1 [] []) :=
  ⟨by decide, by decide,
    claim9_remove_unknown_state_unchanged (HashRing.mk 1 [] []) "B"
      (by decide) (by decide)⟩

theorem replicaKeys_length (X : String) (n : Nat) :
    (replicaKeys X n).length = n := by
  simp [replicaKeys]

theorem countValue_tag (X : String) (K : List String) :
    countValue (K.map (fun k => (k, X))) X = K.length := by
  induction K with
  | nil => rfl
  | cons k rest ih =>
      simp only [List.map_cons, countValue, List.filter_cons] at ih ⊢
      simp [ih]

theorem dictGet_tag_of_mem {K : List String} {k : String} (X : String)
    (h : k ∈ K) : dictGet (K.map (fun k => (k, X))) k = some X := by
  induction K with
  | nil => simp at h
  | cons k0 rest ih =>
      by_cases hk : k0 = k
      · simp [dictGet, hk]
      · rcases List.mem_cons.mp h with he | hr
        · exact absurd he.symm hk
        · simp [dictGet, hk, ih hr]

theorem dictGet_ne_of_countValue_zero {d : Dict} {X : String}
    (h : countValue d X = 0) (k : String) : dictGet d k ≠ some X := by
  induction d with
  | nil => simp [dictGet]
  | cons kv rest ih =>
      obtain ⟨k', v'⟩ := kv
      simp only [countValue, List.filter_cons] at h
      by_cases hv : v' = X
      · simp [hv] at h
      · have hrest : countValue rest X = 0 := by
          simp only [countValue]
          simpa [hv] using h
        by_cases hk : k' = k
        · simp [dictGet, hk]
          exact fun he => hv he
        · simp only [dictGet, if_neg hk]
          exact ih hrest

/-- C5: adding a fresh, collision-free node creates exactly `replicas`
points for it — precisely the hashes of the composite strings
`node:i` — and a subsequent `remove_node` succeeds and leaves zero
points mapping to the node. -/
theorem claim5_replica_count (r : HashRing) (X : String)
    (hknd : (replicaKeys X r.replicas).Nodup)
    (hfresh : ∀ k ∈ replicaKeys X r.replicas, dictGet r.ring k = none)
    (hnoval : countValue r.ring X = 0) :
    countValue (add_node r X).ring X = r.replicas ∧
      (∀ k, dictGet (add_node r X).ring k = some X ↔
        k ∈ replicaKeys X r.replicas) ∧
      ∃ r', remove_node (add_node r X) X = .ok r' ∧
        countValue r'.ring X = 0 := by
  have he := add_node_fresh_eq r X hknd hfresh
  refine ⟨?_, ?_, ?_⟩
  · rw [he]
    show countValue (r.ring ++ (replicaKeys X r.replicas).map (fun k => (k, X))) X =
      r.replicas
    rw [countValue_append, hnoval, countValue_tag, replicaKeys_length]
    omega
  · intro k
    rw [he]
    show dictGet (r.ring ++ (replicaKeys X r.replicas).map (fun k => (k, X))) k =
        some X ↔ k ∈ replicaKeys X r.replicas
    constructor
    · intro hget
      by_cases hmem : k ∈ dictKeys r.ring
      · obtain ⟨v, hv⟩ := (dictGet_isSome_iff r.ring k).mpr hmem
        rw [dictGet_append_left _ hv] at hget
        have : v = X := Option.some.inj hget
        subst this
        exact absurd hv (dictGet_ne_of_countValue_zero hnoval k)
      · rw [dictGet_append_right _ hmem] at hget
        have := (dictGet_isSome_iff _ k).mp ⟨X, hget⟩
        rwa [dictKeys_tag] at this
    · intro hmem
      rw [dictGet_append_right _
        ((dictGet_eq_none_iff r.ring k).mp (hfresh k hmem))]
      exact dictGet_tag_of_mem X hmem
  · have hrepl : (add_node r X).replicas = r.replicas := add_node_replicas r X
    obtain ⟨sk', hok⟩ := remove_keys_ok_append X (replicaKeys X r.replicas)
      r.ring (sortStrings (r.sorted_keys ++ replicaKeys X r.replicas)) r.replicas
      hknd
      (fun k hk => (dictGet_eq_none_iff r.ring k).mp (hfresh k hk))
      (fun k hk => ((List.perm_insertionSort PyLe _).mem_iff).mpr
        (List.mem_append_right _ hk))
    refine ⟨⟨r.replicas, r.ring, sk'⟩, ?_, hnoval⟩
    rw [remove_node, hrepl, he]
    exact hok

/-- Witness for C5: adding node A with three replicas to the empty
ring and then removing it. -/
theorem claim5_witness :
    (replicaKeys "A" 3).Nodup ∧
      (∀ k ∈ replicaKeys "A" 3,
        dictGet (HashRing.mk 3 [] []).ring k = none) ∧
      countValue (HashRing.mk 3 [] []).ring "A" = 0 ∧
      (countValue (add_node (HashRing.mk 3 [] []) "A").ring "A" = 3 ∧
        (∀ k, dictGet (add_node (HashRing.mk 3 [] []) "A").ring k = some "A" ↔
          k ∈ replicaKeys "A" 3) ∧
        ∃ r', remove_node (add_node (HashRing.mk 3 [] []) "A") "A" = .ok r' ∧
          countValue r'.ring "A" = 0) :=
  ⟨by decide, by decide, by decide,
    claim5_replica_count (HashRing.mk 3 [] []) "A"
      (by decide) (by decide) (by decide)⟩

/-- C10: re-adding an already-present node (its replica keys all bound
to it) is total and overwrites the dict in place — the dict is
literally unchanged — while the replica keys are appended to
`sorted_keys` a second time: the sorted list grows by `replicas`,
holds each replica key twice, and stops being the sorted key set of
the dict. -/
theorem claim10_double_add (r : HashRing) (X : String)
    (hrep : 0 < r.replicas)
    (hknd : (replicaKeys X r.replicas).Nodup)
    (hpres : ∀ k ∈ replicaKeys X r.replicas, dictGet r.ring k = some X)
    (hcount : ∀ k ∈ replicaKeys X r.replicas, r.sorted_keys.count k = 1)
    (hexact : r.sorted_keys = sortStrings (dictKeys r.ring)) :
    (add_node r X).ring = r.ring ∧
      (add_node r X).sorted_keys.length = r.sorted_keys.length + r.replicas ∧
      (∀ k ∈ replicaKeys X r.replicas, (add_node r X).sorted_keys.count k = 2) ∧
      (add_node r X).sorted_keys ≠ sortStrings (dictKeys (add_node r X).ring) := by
  have he := add_node_present_eq r X hpres
  refine ⟨by rw [he], ?_, ?_, ?_⟩
  · rw [he]
    show (sortStrings (r.sorted_keys ++ replicaKeys X r.replicas)).length = _
    rw [sortStrings, List.length_insertionSort, List.length_append,
      replicaKeys_length]
  · intro k hk
    rw [he]
    show (sortStrings (r.sorted_keys ++ replicaKeys X r.replicas)).count k = 2
    rw [sortStrings, (List.perm_insertionSort PyLe _).count_eq k,
      List.count_append, hcount k hk, List.count_eq_one_of_mem hknd hk]
  · rw [he]
    show sortStrings (r.sorted_keys ++ replicaKeys X r.replicas) ≠
      sortStrings (dictKeys r.ring)
    intro heq
    have hlen := congrArg List.length heq
    rw [sortStrings, sortStrings, List.length_insertionSort,
      List.length_insertionSort, List.length_append, replicaKeys_length] at hlen
    have hlen2 := congrArg List.length hexact
    rw [sortStrings, List.length_insertionSort] at hlen2
    omega

/-- The ring obtained by adding node A once to an empty 3-replica
ring. -/
def addOnceRing : HashRing := add_node (HashRing.mk 3 [] []) "A"

/-- Witness for C10: re-adding A to the ring that already holds it. -/
theorem claim10_witness :
    0 < addOnceRing.replicas ∧
      (replicaKeys "A" addOnceRing.replicas).Nodup ∧
      (∀ k ∈ replicaKeys "A" addOnceRing.replicas,
        dictGet addOnceRing.ring k = some "A") ∧
      (∀ k ∈ replicaKeys "A" addOnceRing.replicas,
        addOnceRing.sorted_keys.count k = 1) ∧
      addOnceRing.sorted_keys = sortStrings (dictKeys addOnceRing.ring) ∧
      ((add_node addOnceRing "A").ring = addOnceRing.ring ∧
        (add_node addOnceRing "A").sorted_keys.length =
          addOnceRing.sorted_keys.length + addOnceRing.replicas ∧
        (∀ k ∈ replicaKeys "A" addOnceRing.replicas,
          (add_node addOnceRing "A").sorted_keys.count k = 2) ∧
        (add_node addOnceRing "A").sorted_keys ≠
          sortStrings (dictKeys (add_node addOnceRing "A").ring)) :=
  ⟨by decide, by decide, by decide, by decide, by decide,
    claim10_double_add addOnceRing "A"
      (by decide) (by decide) (by decide) (by decide) (by decide)⟩

/-- The ring obtained by adding node A twice to an empty 3-replica
ring — a successful operation sequence the original C4 claim covers. -/
def doubleAddRing : HashRing :=
  add_node (add_node (HashRing.mk 3 [] []) "A") "A"

/-- C4 counterexample: after the successful operation sequence
`add_node A; add_node A` from an empty ring, `sorted_keys` is not the
ascending sort of the key set of the dict (the replica keys appear
twice). -/
theorem claim4_counterexample :
    runOps (HashRing.mk 3 [] []) [Op.add "A", Op.add "A"] = some doubleAddRing ∧
      doubleAddRing.sorted_keys ≠ sortStrings (dictKeys doubleAddRing.ring) := by
  exact ⟨by decide, by decide⟩

/-- C4 (amended): after every sequence of successful operations in
which each `add_node` adds a node that is not already present and
whose replica keys do not collide, `sorted_keys` is exactly the
ascending sort of the key set of the dict: equal to the canonical
sorted key list, with the same members, and ascending. -/
theorem claim4_sorted_is_key_set (n : Nat) (ops : List Op) (r' : HashRing)
    (h : runClean (HashRing.mk n [] []) ops = some r') :
    r'.sorted_keys = sortStrings (dictKeys r'.ring) ∧
      (∀ k, k ∈ r'.sorted_keys ↔ k ∈ dictKeys r'.ring) ∧
      List.Sorted PyLe r'.sorted_keys := by
  have hinv0 : Inv (HashRing.mk n [] []) :=
    ⟨List.sorted_nil, List.Perm.refl _, List.nodup_nil⟩
  have hinv : Inv r' := inv_runClean ops hinv0 h
  exact ⟨inv_exact hinv, fun k => (hinv.2.1).mem_iff, hinv.1⟩

/-- Witness for C4 at the one-operation sequence adding node A. -/
theorem claim4_witness :
    runClean (HashRing.mk 3 [] []) [Op.add "A"] = some addOnceRing ∧
      (addOnceRing.sorted_keys = sortStrings (dictKeys addOnceRing.ring) ∧
        (∀ k, k ∈ addOnceRing.sorted_keys ↔ k ∈ dictKeys addOnceRing.ring) ∧
        List.Sorted PyLe addOnceRing.sorted_keys) :=
  ⟨by decide, claim4_sorted_is_key_set 3 [Op.add "A"] addOnceRing (by decide)⟩

/-- C6 counterexample: on an empty ring the second `next()` call on
`get_nodes` does not stop with end-of-sequence — it diverges in the
silent `while True:` loop. -/
theorem claim6_counterexample :
    get_nodes_outcome (HashRing.mk 3 [] []) "x" 1 = GenOutcome.diverges ∧
      get_nodes_outcome (HashRing.mk 3 [] []) "x" 1 ≠ GenOutcome.stops := by
  exact ⟨by decide, by decide⟩

/-- C6 (amended): on an empty ring `get_nodes` yields the sentinel
once, and every later `next()` call diverges (the generator loops
forever without yielding or raising); it is never exhausted. -/
theorem claim6_empty_ring_generator (r : HashRing) (k : String) (n : Nat)
    (h1 : r.ring = []) (h2 : r.sorted_keys = []) :
    get_nodes_outcome r k 0 = GenOutcome.yields YieldVal.nonePair ∧
      get_nodes_outcome r k (n + 1) = GenOutcome.diverges := by
  have hpos : get_node_pos r k = some (none, none) := by
    rw [get_node_pos, if_pos h1]
  have ht : get_nodes_trace r k = ([YieldVal.nonePair], GenTail.loops []) := by
    rw [get_nodes_trace]
    simp [hpos, h1, h2, mapGetPre]
  have hn : ¬ (n + 1 < 1) := by omega
  constructor
  · simp [get_nodes_outcome, ht]
  · simp [get_nodes_outcome, ht, hn]

/-- Witness for C6 at a concrete empty ring and the second call. -/
theorem claim6_witness :
    (HashRing.mk 3 [] []).ring = [] ∧
      (HashRing.mk 3 [] []).sorted_keys = [] ∧
      (get_nodes_outcome (HashRing.mk 3 [] []) "y" 0 =
          GenOutcome.yields YieldVal.nonePair ∧
        get_nodes_outcome (HashRing.mk 3 [] []) "y" 1 = GenOutcome.diverges) :=
  ⟨rfl, rfl, claim6_empty_ring_generator (HashRing.mk 3 [] []) "y" 0 rfl rfl⟩

/-- C7: evaluation of `gen_key` at the input `A:0`: the code returns
the 32-character lowercase hexadecimal MD5 digest string (Python
`hexdigest()`), not an integer, although its own docstring promises a
long value. -/
theorem claim7_gen_key_hexdigest :
    gen_key "A:0" = "57e1e221c0a1aa811bc8d4d8dd6deaa7" ∧
      (gen_key "A:0").length = 32 := by
  exact ⟨by decide, by decide⟩

end HashRingModel
